import Mathlib

set_option maxHeartbeats 1000000

/-!
Verification of the admission/queueing engine of `src/person_registry.py`
(ProcessingQueueSim): a capacity-bounded registry with an active set, a FIFO
waiting queue, a completed log and a seen-identifier set, driven by a
tick-based simulation loop, plus a CSV export of the completed log.

The Python code mutates shared `Person` objects; we model the object store as
a function `Nat → Person` (the "heap") indexed by the entity identifier
(`Person.id_no`, a UUID in the source, abstracted as a `Nat`), so that
aliasing between the registry's collections and the caller's references is
represented faithfully.  Wall-clock instants (`datetime.now()`) are
abstracted as `Nat` tick values passed to each operation; no claim depends on
the concrete value of a timestamp, only on whether it is set.
-/

/-- `Statuses` enum of the source (`UNASSIGNED/ASSIGNED/WAITING/COMPLETED`). -/
inductive Statuses where
  | UNASSIGNED
  | ASSIGNED
  | WAITING
  | COMPLETED
deriving DecidableEq, Repr

/-- The data part of a Python `Person` object.  The identifier `id_no` is kept
outside the structure: it is the index of the object in the heap. -/
structure Person where
  name : String
  surname : String
  email : String
  processing_time : Int
  assigned_at : Option Nat := none
  registered_at : Option Nat := none
  completed_at : Option Nat := none
  status : Statuses := .UNASSIGNED
deriving DecidableEq, Repr

/-- `Person.register`: sets the registered timestamp and moves to WAITING. -/
def Person.register (p : Person) (now : Nat) : Person :=
  { p with registered_at := some now, status := .WAITING }

/-- `Person.assign`: sets the assigned timestamp and moves to ASSIGNED. -/
def Person.assign (p : Person) (now : Nat) : Person :=
  { p with assigned_at := some now, status := .ASSIGNED }

/-- Heap update: mutation of the object stored at identifier `pid`. -/
def store (h : Nat → Person) (pid : Nat) (p : Person) : Nat → Person :=
  fun x => if x = pid then p else h x

/-- The `Registry` state: capacity `limit`, the three collections (as lists of
identifiers into the heap) and the seen-identifier set, together with the heap
of `Person` objects. -/
structure Registry where
  limit : Nat
  heap : Nat → Person
  assigned_list : List Nat
  awaiting_queue : List Nat
  completed_list : List Nat
  seen_ids : Finset Nat

/-- A fresh `Registry(limit)`: all collections empty.  The heap's content at
unallocated identifiers is irrelevant; we fix a default object. -/
def Registry.empty (limit : Nat) : Registry :=
  { limit := limit
    heap := fun _ => { name := "", surname := "", email := "", processing_time := 0 }
    assigned_list := []
    awaiting_queue := []
    completed_list := []
    seen_ids := ∅ }

/-- `Registry.available_tickets`: `self.limit - len(self.__assigned_list)`. -/
def Registry.available_tickets (r : Registry) : Int :=
  (r.limit : Int) - r.assigned_list.length

/-- Signal produced by `Registry.add`: either the person was taken in
(assigned or queued), or the duplicate-identifier early return was hit (the
source logs "You cannot add the same person twice" and returns).  `add` never
raises. -/
inductive AddSignal where
  | accepted
  | duplicateRejected
deriving DecidableEq, Repr

/-- `Registry.add(person)`, with the person given as its identifier `pid`
plus its object state `p`.  Mirrors the source line by line: duplicate check
against `seen_ids`, insert into `seen_ids`, register if not yet registered,
then either assign and append to the active list (a slot is free) or append
to the waiting queue. -/
def Registry.addFull (r : Registry) (pid : Nat) (p : Person) (now : Nat) :
    Registry × AddSignal :=
  if pid ∈ r.seen_ids then
    (r, .duplicateRejected)
  else
    let r1 : Registry := { r with seen_ids := insert pid r.seen_ids }
    let p1 : Person := if p.registered_at = none then p.register now else p
    if 0 < r1.available_tickets then
      ({ r1 with heap := store r1.heap pid (p1.assign now)
                 assigned_list := r1.assigned_list ++ [pid] }, .accepted)
    else
      ({ r1 with heap := store r1.heap pid p1
                 awaiting_queue := r1.awaiting_queue ++ [pid] }, .accepted)

/-- The state after `Registry.add` (the source's `add` returns `None`; the
signal is only observable through the log). -/
def Registry.add (r : Registry) (pid : Nat) (p : Person) (now : Nat) : Registry :=
  (r.addFull pid p now).1

/-- The `while` loop of `Registry.promote`: while the waiting queue is
non-empty and a slot is free, pop the head of the queue, assign it, and
append it to the active list.  Returns the final heap, active list and
queue. -/
def promoteAux (limit : Nat) (now : Nat) :
    (Nat → Person) → List Nat → List Nat →
    (Nat → Person) × List Nat × List Nat
  | heap, assigned, [] => (heap, assigned, [])
  | heap, assigned, pid :: rest =>
    if 0 < (limit : Int) - assigned.length then
      promoteAux limit now (store heap pid ((heap pid).assign now)) (assigned ++ [pid]) rest
    else
      (heap, assigned, pid :: rest)

/-- `Registry.promote`. -/
def Registry.promote (r : Registry) (now : Nat) : Registry :=
  let out := promoteAux r.limit now r.heap r.assigned_list r.awaiting_queue
  { r with heap := out.1, assigned_list := out.2.1, awaiting_queue := out.2.2 }

/-- Result of `Registry.complete`: either a normal return, or the
`ValueError` raised by `self.__assigned_list.remove(person)` when the person
is not an active member.  Both carry the registry state at that point (in the
error case the person object has already been mutated in place). -/
inductive CompleteResult where
  | ok (r : Registry)
  | invalidState (r : Registry)

/-- Whether the call returned normally. -/
def CompleteResult.isOk : CompleteResult → Bool
  | .ok _ => true
  | .invalidState _ => false

/-- The registry state carried by the result. -/
def CompleteResult.state : CompleteResult → Registry
  | .ok r => r
  | .invalidState r => r

/-- `Registry.complete(person)`.  Mirrors the source order: first the person
object is mutated (completed timestamp, status `COMPLETED`), then
`assigned_list.remove(person)` either removes the entity (it proceeds to
discard the identifier from `seen_ids`, append to the completed log and call
`promote`) or raises `ValueError` — with the object mutation already done. -/
def Registry.complete (r : Registry) (pid : Nat) (now : Nat) : CompleteResult :=
  let p1 : Person := { r.heap pid with completed_at := some now, status := .COMPLETED }
  let heap1 := store r.heap pid p1
  if pid ∈ r.assigned_list then
    .ok (Registry.promote
      { r with heap := heap1
               assigned_list := r.assigned_list.erase pid
               seen_ids := r.seen_ids.erase pid
               completed_list := r.completed_list ++ [pid] } now)
  else
    .invalidState { r with heap := heap1 }

/-- The registry operations, iterated: `Steps r r'` holds when `r'` is
obtained from `r` by a sequence of `add` / `complete` (called under its
precondition: the entity is an active member) / `promote` calls. -/
inductive Steps : Registry → Registry → Prop
  | refl (r : Registry) : Steps r r
  | add {r r' : Registry} (pid : Nat) (p : Person) (now : Nat) :
      Steps r r' → Steps r (r'.add pid p now)
  | complete {r r' : Registry} (pid : Nat) (now : Nat) :
      Steps r r' → pid ∈ r'.assigned_list → Steps r ((r'.complete pid now).state)
  | promote {r r' : Registry} (now : Nat) :
      Steps r r' → Steps r (r'.promote now)

/-- Reachable states: obtained from an empty registry of positive capacity by
registry operations called under their preconditions. -/
def Reachable (r : Registry) : Prop :=
  ∃ limit : Nat, 0 < limit ∧ Steps (Registry.empty limit) r

/-- The registry representation invariant: positive capacity, the active set
never exceeds capacity, no identifier is in two collections at once, the
seen-identifier set is exactly the identifiers of active and waiting
entities, and the queue is non-empty only when capacity is exhausted. -/
def RegInv (r : Registry) : Prop :=
  0 < r.limit ∧
  r.assigned_list.length ≤ r.limit ∧
  (r.assigned_list ++ r.awaiting_queue).Nodup ∧
  r.seen_ids = r.assigned_list.toFinset ∪ r.awaiting_queue.toFinset ∧
  (r.awaiting_queue ≠ [] → r.assigned_list.length = r.limit)

instance (r : Registry) : Decidable (RegInv r) := by
  unfold RegInv; infer_instance

/-! ### Characterization of `promote` -/

/-- Sequential in-place assignment of a list of persons (the heap effect of
the `promote` loop). -/
def assignAllHeap (now : Nat) (heap : Nat → Person) (pids : List Nat) : Nat → Person :=
  pids.foldl (fun h pid => store h pid ((h pid).assign now)) heap

/-- Number of entities the `promote` loop moves: the queue is consumed until
it is empty or capacity is reached. -/
def promoteCount (r : Registry) : Nat :=
  min r.awaiting_queue.length (r.limit - r.assigned_list.length)

theorem promoteAux_eq (limit now : Nat) (heap : Nat → Person)
    (assigned queue : List Nat) :
    promoteAux limit now heap assigned queue =
      (assignAllHeap now heap (queue.take (min queue.length (limit - assigned.length))),
       assigned ++ queue.take (min queue.length (limit - assigned.length)),
       queue.drop (min queue.length (limit - assigned.length))) := by
  induction queue generalizing heap assigned with
  | nil => simp [promoteAux, assignAllHeap]
  | cons pid rest ih =>
    rw [promoteAux]
    by_cases hlt : assigned.length < limit
    · rw [if_pos (by omega)]
      rw [ih]
      have harith : min (pid :: rest).length (limit - assigned.length) =
          min rest.length (limit - (assigned ++ [pid]).length) + 1 := by
        simp only [List.length_cons, List.length_append, List.length_cons,
          List.length_nil]
        omega
      rw [harith]
      simp [assignAllHeap, List.append_assoc]
    · rw [if_neg (by omega)]
      have h0 : limit - assigned.length = 0 := by omega
      simp [h0, assignAllHeap]

theorem promote_eq (r : Registry) (now : Nat) :
    r.promote now =
      { r with
        heap := assignAllHeap now r.heap (r.awaiting_queue.take (promoteCount r))
        assigned_list := r.assigned_list ++ r.awaiting_queue.take (promoteCount r)
        awaiting_queue := r.awaiting_queue.drop (promoteCount r) } := by
  simp [Registry.promote, promoteAux_eq, promoteCount]

/-- Unfolding `add` on the duplicate path: full no-op. -/
theorem add_dup {r : Registry} {pid : Nat} (p : Person) (now : Nat)
    (h : pid ∈ r.seen_ids) :
    r.add pid p now = r := by
  simp [Registry.add, Registry.addFull, h]

/-- `add` on the duplicate path reports the rejection signal. -/
theorem addFull_dup {r : Registry} {pid : Nat} (p : Person) (now : Nat)
    (h : pid ∈ r.seen_ids) :
    r.addFull pid p now = (r, .duplicateRejected) := by
  simp [Registry.addFull, h]

/-- Unfolding `add` on the direct-assignment path (a slot is free). -/
theorem add_assigned {r : Registry} {pid : Nat} (p : Person) (now : Nat)
    (h : pid ∉ r.seen_ids) (hlen : r.assigned_list.length < r.limit) :
    r.add pid p now =
      { r with
          heap := store r.heap pid
            ((if p.registered_at = none then p.register now else p).assign now)
          assigned_list := r.assigned_list ++ [pid]
          seen_ids := insert pid r.seen_ids } := by
  simp only [Registry.add, Registry.addFull, Registry.available_tickets, if_neg h]
  rw [if_pos (by omega)]

/-- Unfolding `add` on the queueing path (capacity exhausted). -/
theorem add_queued {r : Registry} {pid : Nat} (p : Person) (now : Nat)
    (h : pid ∉ r.seen_ids) (hlen : r.limit ≤ r.assigned_list.length) :
    r.add pid p now =
      { r with
          heap := store r.heap pid (if p.registered_at = none then p.register now else p)
          awaiting_queue := r.awaiting_queue ++ [pid]
          seen_ids := insert pid r.seen_ids } := by
  simp only [Registry.add, Registry.addFull, Registry.available_tickets, if_neg h]
  rw [if_neg (by omega)]

/-- Under the invariant, `promote` is a no-op: either the queue is empty, or
capacity is exhausted.  (This is the idempotence/redundant-invocation safety
noted by the spec.) -/
theorem promote_noop {r : Registry} (h : RegInv r) (now : Nat) :
    r.promote now = r := by
  have hcount : promoteCount r = 0 := by
    rcases hq : r.awaiting_queue with _ | ⟨q0, qrest⟩
    · simp [promoteCount, hq]
    · have := h.2.2.2.2 (by rw [hq]; simp)
      simp [promoteCount, this]
  rw [promote_eq, hcount]
  simp [assignAllHeap]

/-! ### Preservation of the invariant -/

theorem regInv_empty {limit : Nat} (h : 0 < limit) : RegInv (Registry.empty limit) := by
  refine ⟨h, ?_, ?_, ?_, ?_⟩ <;> simp [Registry.empty]

theorem regInv_add {r : Registry} (h : RegInv r) (pid : Nat) (p : Person) (now : Nat) :
    RegInv (r.add pid p now) := by
  obtain ⟨h1, h2, h3, h4, h5⟩ := h
  by_cases hseen : pid ∈ r.seen_ids
  · rw [add_dup p now hseen]
    exact ⟨h1, h2, h3, h4, h5⟩
  · have hfresh : pid ∉ r.assigned_list ∧ pid ∉ r.awaiting_queue := by
      rw [h4] at hseen
      simp only [Finset.mem_union, List.mem_toFinset] at hseen
      tauto
    by_cases hlen : r.assigned_list.length < r.limit
    · have hqe : r.awaiting_queue = [] := by
        by_contra hne
        exact absurd (h5 hne) (by omega)
      rw [add_assigned p now hseen hlen]
      refine ⟨h1, ?_, ?_, ?_, ?_⟩ <;> dsimp only
      · simp only [List.length_append, List.length_singleton]
        omega
      · simp only [List.append_assoc, List.singleton_append]
        rw [List.nodup_middle]
        exact List.nodup_cons.mpr ⟨by simp [hfresh.1, hfresh.2], h3⟩
      · rw [h4]
        ext x
        simp only [Finset.mem_insert, Finset.mem_union, List.mem_toFinset,
          List.mem_append, List.mem_singleton]
        tauto
      · simp [hqe]
    · have hge : r.limit ≤ r.assigned_list.length := by omega
      rw [add_queued p now hseen hge]
      refine ⟨h1, h2, ?_, ?_, ?_⟩ <;> dsimp only
      · rw [← List.append_assoc, List.nodup_middle]
        exact List.nodup_cons.mpr
          ⟨by simp [hfresh.1, hfresh.2], by simpa using h3⟩
      · rw [h4]
        ext x
        simp only [Finset.mem_insert, Finset.mem_union, List.mem_toFinset,
          List.mem_append, List.mem_singleton]
        tauto
      · intro _
        omega

theorem regInv_promote {r : Registry} (h : RegInv r) (now : Nat) :
    RegInv (r.promote now) := by
  rw [promote_noop h now]
  exact h

/-- Unfolding `complete` when the entity is an active member: the object is
mutated, the identifier leaves the active list and the seen set, the entity
is appended to the completed log, and `promote` runs on the result. -/
theorem complete_mem {r : Registry} {pid : Nat} (now : Nat)
    (h : pid ∈ r.assigned_list) :
    r.complete pid now = .ok (Registry.promote
      { r with
          heap := store r.heap pid
            { r.heap pid with completed_at := some now, status := .COMPLETED }
          assigned_list := r.assigned_list.erase pid
          seen_ids := r.seen_ids.erase pid
          completed_list := r.completed_list ++ [pid] } now) := by
  simp [Registry.complete, h]

/-- Unfolding `complete` when the entity is not an active member: the
`ValueError` of `list.remove` is raised, but the person object has already
been mutated in place; every registry collection is untouched. -/
theorem complete_notMem {r : Registry} {pid : Nat} (now : Nat)
    (h : pid ∉ r.assigned_list) :
    r.complete pid now = .invalidState
      { r with
          heap := store r.heap pid
            { r.heap pid with completed_at := some now, status := .COMPLETED } } := by
  simp [Registry.complete, h]

/-- `promote` establishes the invariant from a weaker precondition: the state
left behind by `complete` (one slot just freed) satisfies it with
`limit ≤ |active| + 1` in place of the queue clause. -/
theorem promote_pre {r : Registry} (now : Nat)
    (h1 : 0 < r.limit) (h2 : r.assigned_list.length ≤ r.limit)
    (h3 : (r.assigned_list ++ r.awaiting_queue).Nodup)
    (h4 : r.seen_ids = r.assigned_list.toFinset ∪ r.awaiting_queue.toFinset)
    (h5 : r.awaiting_queue ≠ [] → r.limit ≤ r.assigned_list.length + 1) :
    RegInv (r.promote now) := by
  rw [promote_eq]
  refine ⟨h1, ?_, ?_, ?_, ?_⟩ <;> dsimp only
  · simp only [List.length_append, List.length_take]
    simp only [promoteCount]
    omega
  · rw [List.append_assoc, List.take_append_drop]
    exact h3
  · have hsplit : ∀ x : Nat, x ∈ r.awaiting_queue ↔
        x ∈ r.awaiting_queue.take (promoteCount r) ∨
        x ∈ r.awaiting_queue.drop (promoteCount r) := by
      intro x
      conv_lhs => rw [← List.take_append_drop (promoteCount r) r.awaiting_queue]
      exact List.mem_append
    rw [h4]
    ext x
    simp only [Finset.mem_union, List.mem_toFinset, List.mem_append, hsplit x]
    tauto
  · intro hne
    have hk : promoteCount r < r.awaiting_queue.length := by
      have := List.length_pos.mpr hne
      simp only [List.length_drop] at this
      omega
    have hqn : r.awaiting_queue ≠ [] := by
      intro h0
      rw [h0] at hk
      simp at hk
    have h5' := h5 hqn
    simp only [List.length_append, List.length_take]
    simp only [promoteCount] at hk ⊢
    omega

theorem regInv_complete {r : Registry} (h : RegInv r) {pid : Nat}
    (hpid : pid ∈ r.assigned_list) (now : Nat) :
    RegInv ((r.complete pid now).state) := by
  obtain ⟨h1, h2, h3, h4, h5⟩ := h
  have hnodA : r.assigned_list.Nodup := (List.nodup_append.mp h3).1
  have hdisj : r.assigned_list.Disjoint r.awaiting_queue := (List.nodup_append.mp h3).2.2
  have hpq : pid ∉ r.awaiting_queue := fun hmem => hdisj hpid hmem
  have hlenE : (r.assigned_list.erase pid).length = r.assigned_list.length - 1 :=
    List.length_erase_of_mem hpid
  have hlenpos : 0 < r.assigned_list.length := List.length_pos.mpr (by
    intro hnil
    rw [hnil] at hpid
    exact absurd hpid (List.not_mem_nil pid))
  rw [complete_mem now hpid, CompleteResult.state]
  apply promote_pre now <;> dsimp only
  · exact h1
  · omega
  · exact ((r.assigned_list.erase_sublist pid).append_right r.awaiting_queue).nodup h3
  · rw [h4]
    ext x
    simp only [Finset.mem_erase, Finset.mem_union, List.mem_toFinset,
      hnodA.mem_erase_iff]
    constructor
    · rintro ⟨hne, hA | hQ⟩
      · exact Or.inl ⟨hne, hA⟩
      · exact Or.inr hQ
    · rintro (⟨hne, hA⟩ | hQ)
      · exact ⟨hne, Or.inl hA⟩
      · exact ⟨fun he => hpq (he ▸ hQ), Or.inr hQ⟩
  · intro hne
    have := h5 hne
    omega

/-- The invariant holds at every state a `Steps` run produces from an
invariant state. -/
theorem steps_regInv {r r' : Registry} (hs : Steps r r') (h : RegInv r) : RegInv r' := by
  induction hs with
  | refl => exact h
  | add pid p now _ ih => exact regInv_add ih pid p now
  | complete pid now _ hmem ih => exact regInv_complete ih hmem now
  | promote now _ ih => exact regInv_promote ih now

/-- Every reachable registry state satisfies the representation invariant. -/
theorem reachable_regInv {r : Registry} (h : Reachable r) : RegInv r := by
  obtain ⟨limit, hl, hs⟩ := h
  exact steps_regInv hs (regInv_empty hl)

/-! ### Concrete example data for witnesses -/

def pA : Person :=
  { name := "Ada", surname := "Lovelace", email := "ada@example.com", processing_time := 2 }

def pB : Person :=
  { name := "Ben", surname := "Babbage", email := "ben@example.com", processing_time := 1 }

def pC : Person :=
  { name := "Cy", surname := "Curie", email := "cy@example.com", processing_time := 3 }

/-- Capacity 2, one entity added (it is assigned directly). -/
def exampleOne : Registry := (Registry.empty 2).add 1 pA 0

/-- Capacity 1, two entities added: the first is assigned, the second waits. -/
def exampleTwo : Registry := ((Registry.empty 1).add 1 pA 0).add 2 pB 0

theorem exampleOne_reachable : Reachable exampleOne :=
  ⟨2, by omega, Steps.add 1 pA 0 (Steps.refl (Registry.empty 2))⟩

theorem exampleTwo_reachable : Reachable exampleTwo :=
  ⟨1, by omega, Steps.add 2 pB 0 (Steps.add 1 pA 0 (Steps.refl (Registry.empty 1)))⟩

/-! ### Claim theorems: invariants -/

/-- **C1.** For every sequence of registry operations (add, complete on an
active member, promote) starting from an empty registry with positive
capacity, the active set's size satisfies `0 ≤ |active| ≤ capacity` in every
reachable state, and `available_tickets = capacity − |active|` is never
negative. -/
theorem reachable_active_size_bounded {r : Registry} (h : Reachable r) :
    0 ≤ r.assigned_list.length ∧ r.assigned_list.length ≤ r.limit ∧
    r.available_tickets = (r.limit : Int) - r.assigned_list.length ∧
    0 ≤ r.available_tickets := by
  have hi := reachable_regInv h
  refine ⟨Nat.zero_le _, hi.2.1, rfl, ?_⟩
  have := hi.2.1
  unfold Registry.available_tickets
  omega

theorem reachable_active_size_bounded_witness :
    0 ≤ exampleOne.assigned_list.length ∧
    exampleOne.assigned_list.length ≤ exampleOne.limit ∧
    exampleOne.available_tickets =
      (exampleOne.limit : Int) - exampleOne.assigned_list.length ∧
    0 ≤ exampleOne.available_tickets :=
  reachable_active_size_bounded exampleOne_reachable

/-- **C2.** In every reachable registry state, the seen-identifier set equals
exactly the set of identifiers of entities in the active set union the
identifiers of entities in the waiting queue. -/
theorem reachable_seen_eq_active_union_waiting {r : Registry} (h : Reachable r) :
    r.seen_ids = r.assigned_list.toFinset ∪ r.awaiting_queue.toFinset :=
  (reachable_regInv h).2.2.2.1

theorem reachable_seen_eq_active_union_waiting_witness :
    exampleTwo.seen_ids =
      exampleTwo.assigned_list.toFinset ∪ exampleTwo.awaiting_queue.toFinset :=
  reachable_seen_eq_active_union_waiting exampleTwo_reachable

/-- **C9.** In every reachable registry state, a non-empty waiting queue
forces `available_tickets = 0`; hence `add` (which never consults the waiting
queue) cannot take its direct-assignment path then: any newcomer with a fresh
identifier is appended to the tail of the queue, and the active set is
unchanged — no newcomer is admitted ahead of an already-waiting entity. -/
theorem reachable_waiting_nonempty_no_slots {r : Registry} (h : Reachable r)
    (hq : r.awaiting_queue ≠ []) :
    r.available_tickets = 0 ∧
    ∀ pid p now, pid ∉ r.seen_ids →
      (r.add pid p now).assigned_list = r.assigned_list ∧
      (r.add pid p now).awaiting_queue = r.awaiting_queue ++ [pid] := by
  have hi := reachable_regInv h
  have hlen := hi.2.2.2.2 hq
  refine ⟨by unfold Registry.available_tickets; omega, ?_⟩
  intro pid p now hp
  rw [add_queued p now hp (le_of_eq hlen.symm)]
  exact ⟨rfl, rfl⟩

theorem reachable_waiting_nonempty_no_slots_witness :
    exampleTwo.available_tickets = 0 ∧
    (exampleTwo.add 3 pC 0).assigned_list = exampleTwo.assigned_list ∧
    (exampleTwo.add 3 pC 0).awaiting_queue = exampleTwo.awaiting_queue ++ [3] := by
  have h := reachable_waiting_nonempty_no_slots exampleTwo_reachable (by decide)
  exact ⟨h.1, (h.2 3 pC 0 (by decide)).1, (h.2 3 pC 0 (by decide)).2⟩

/-! ### Claim theorems: error handling of `add` and `complete` -/

/-- **C6.** For every registry state and every entity whose identifier is
already in the seen-identifier set, `add` is a no-op that reports a rejection
(the logged duplicate-admission message, modeled as the `duplicateRejected`
signal of a normal return — `add` has no error path): the whole state, in
particular the active set, waiting queue and completed log, is unchanged. -/
theorem add_duplicate_noop (r : Registry) (pid : Nat) (p : Person) (now : Nat)
    (h : pid ∈ r.seen_ids) :
    r.addFull pid p now = (r, .duplicateRejected) ∧
    (r.add pid p now).assigned_list = r.assigned_list ∧
    (r.add pid p now).awaiting_queue = r.awaiting_queue ∧
    (r.add pid p now).completed_list = r.completed_list := by
  refine ⟨addFull_dup p now h, ?_, ?_, ?_⟩ <;> rw [add_dup p now h]

theorem add_duplicate_noop_witness :
    exampleOne.addFull 1 pB 5 = (exampleOne, .duplicateRejected) ∧
    (exampleOne.add 1 pB 5).assigned_list = exampleOne.assigned_list ∧
    (exampleOne.add 1 pB 5).awaiting_queue = exampleOne.awaiting_queue ∧
    (exampleOne.add 1 pB 5).completed_list = exampleOne.completed_list :=
  add_duplicate_noop exampleOne 1 pB 5 (by decide)

/-- **C5.** Calling `complete` on an entity that is not currently an active
member fails with an error condition — the `ValueError` raised by
`assigned_list.remove`, modeled as the `invalidState` result — rather than
returning normally.  `add`'s duplicate-admission rejection, by contrast, is a
normal return carrying the `duplicateRejected` signal (`add` never raises),
so the two conditions are distinguishable. -/
theorem complete_nonactive_errors (r : Registry) (pid : Nat) (now : Nat)
    (h : pid ∉ r.assigned_list) :
    (r.complete pid now).isOk = false ∧
    (∀ (r2 : Registry) (pid2 : Nat) (p2 : Person) (now2 : Nat),
      pid2 ∈ r2.seen_ids → (r2.addFull pid2 p2 now2).2 = .duplicateRejected) := by
  constructor
  · rw [complete_notMem now h, CompleteResult.isOk]
  · intro r2 pid2 p2 now2 h2
    rw [addFull_dup p2 now2 h2]

theorem complete_nonactive_errors_witness :
    (exampleTwo.complete 2 7).isOk = false ∧
    (exampleOne.addFull 1 pB 5).2 = .duplicateRejected := by
  have h := complete_nonactive_errors exampleTwo 2 7 (by decide)
  exact ⟨h.1, h.2 exampleOne 1 pB 5 (by decide)⟩

/-- **C10.** When `complete` is called on an entity that is not in the active
set, the failure is not atomic with respect to the entity: the person object
is mutated first (`completed_at` set, status `COMPLETED`) and only then does
`assigned_list.remove` raise, while the registry's active set, waiting queue,
completed log and seen-identifier set are all unchanged.  In particular (the
closed conjuncts) the waiting entity of `exampleTwo` carries status
`COMPLETED` while still sitting in the waiting queue. -/
theorem complete_nonactive_mutates_entity (r : Registry) (pid : Nat) (now : Nat)
    (h : pid ∉ r.assigned_list) :
    r.complete pid now = .invalidState
      { r with heap := store r.heap pid
                  { r.heap pid with completed_at := some now, status := .COMPLETED } } ∧
    ((r.complete pid now).state.heap pid).status = .COMPLETED ∧
    ((r.complete pid now).state.heap pid).completed_at = some now ∧
    (r.complete pid now).state.assigned_list = r.assigned_list ∧
    (r.complete pid now).state.awaiting_queue = r.awaiting_queue ∧
    (r.complete pid now).state.completed_list = r.completed_list ∧
    (r.complete pid now).state.seen_ids = r.seen_ids ∧
    ((exampleTwo.complete 2 7).state.heap 2).status = .COMPLETED ∧
    2 ∈ (exampleTwo.complete 2 7).state.awaiting_queue := by
  refine ⟨complete_notMem now h, ?_, ?_, ?_, ?_, ?_, ?_, by decide, by decide⟩ <;>
    rw [complete_notMem now h, CompleteResult.state] <;> simp [store]

theorem complete_nonactive_mutates_entity_witness :
    exampleTwo.complete 2 7 = .invalidState
      { exampleTwo with heap := store exampleTwo.heap 2
                          { exampleTwo.heap 2 with
                              completed_at := some 7, status := .COMPLETED } } ∧
    ((exampleTwo.complete 2 7).state.heap 2).status = .COMPLETED ∧
    ((exampleTwo.complete 2 7).state.heap 2).completed_at = some 7 ∧
    (exampleTwo.complete 2 7).state.assigned_list = exampleTwo.assigned_list ∧
    (exampleTwo.complete 2 7).state.awaiting_queue = exampleTwo.awaiting_queue ∧
    (exampleTwo.complete 2 7).state.completed_list = exampleTwo.completed_list ∧
    (exampleTwo.complete 2 7).state.seen_ids = exampleTwo.seen_ids ∧
    ((exampleTwo.complete 2 7).state.heap 2).status = .COMPLETED ∧
    2 ∈ (exampleTwo.complete 2 7).state.awaiting_queue :=
  complete_nonactive_mutates_entity exampleTwo 2 7 (by decide)

/-! ### FIFO promotion: operation traces and the promotion log -/

/-- The registry state after the collection updates of `complete` and before
the trailing `promote` call. -/
def completeMid (r : Registry) (pid : Nat) (now : Nat) : Registry :=
  { r with
      heap := store r.heap pid
        { r.heap pid with completed_at := some now, status := .COMPLETED }
      assigned_list := r.assigned_list.erase pid
      seen_ids := r.seen_ids.erase pid
      completed_list := r.completed_list ++ [pid] }

theorem complete_mem_mid {r : Registry} {pid : Nat} (now : Nat)
    (h : pid ∈ r.assigned_list) :
    r.complete pid now = .ok ((completeMid r pid now).promote now) := by
  rw [complete_mem now h]
  rfl

/-- One registry operation of a run (the trailing `Nat` is the clock value of
the call). -/
inductive Op where
  | add (pid : Nat) (p : Person) (now : Nat)
  | complete (pid : Nat) (now : Nat)
  | promote (now : Nat)

/-- Execute one operation (a failing `complete` leaves the collections as
they were; see `complete_notMem`). -/
def applyOp (r : Registry) : Op → Registry
  | .add pid p now => r.add pid p now
  | .complete pid now => (r.complete pid now).state
  | .promote now => r.promote now

/-- Execute a whole run. -/
def applyOps (r : Registry) : List Op → Registry
  | [] => r
  | op :: ops => applyOps (applyOp r op) ops

/-- The identifiers one operation promotes (moves waiting → active), in
promotion order: `promote` moves the queue prefix it can fit, `complete` on
an active member does the same after freeing its slot, nothing else
promotes. -/
def promotedByOp (r : Registry) : Op → List Nat
  | .add _ _ _ => []
  | .complete pid now =>
      if pid ∈ r.assigned_list then
        (completeMid r pid now).awaiting_queue.take (promoteCount (completeMid r pid now))
      else []
  | .promote _ => r.awaiting_queue.take (promoteCount r)

/-- The cumulative promotion log of a run, in promotion order. -/
def promotedByOps (r : Registry) : List Op → List Nat
  | [] => []
  | op :: ops => promotedByOp r op ++ promotedByOps (applyOp r op) ops

/-- The identifiers passed to `add` during a run. -/
def addedIds : List Op → List Nat
  | [] => []
  | .add pid _ _ :: ops => pid :: addedIds ops
  | .complete _ _ :: ops => addedIds ops
  | .promote _ :: ops => addedIds ops

theorem mem_addedIds_cons (x : Nat) (op : Op) (ops : List Op) :
    x ∈ addedIds (op :: ops) ↔ x ∈ addedIds [op] ∨ x ∈ addedIds ops := by
  cases op <;> simp [addedIds]

/-- Effect of one operation on the waiting queue: a prefix (exactly the
identifiers the operation promotes) is removed from the front, and only an
`add` can append (at the back). -/
theorem applyOp_queue (r : Registry) (op : Op) :
    ∃ k0 t0, k0 ≤ r.awaiting_queue.length ∧
      (applyOp r op).awaiting_queue = r.awaiting_queue.drop k0 ++ t0 ∧
      promotedByOp r op = r.awaiting_queue.take k0 ∧
      (∀ x ∈ t0, x ∈ addedIds [op]) := by
  cases op with
  | add pid p now =>
    by_cases hseen : pid ∈ r.seen_ids
    · exact ⟨0, [], Nat.zero_le _, by simp [applyOp, add_dup p now hseen],
        by simp [promotedByOp], by simp⟩
    · by_cases hlen : r.assigned_list.length < r.limit
      · exact ⟨0, [], Nat.zero_le _,
          by rw [applyOp, add_assigned p now hseen hlen]; simp,
          by simp [promotedByOp], by simp⟩
      · refine ⟨0, [pid], Nat.zero_le _, ?_, by simp [promotedByOp], ?_⟩
        · rw [applyOp, add_queued p now hseen (by omega)]
          simp
        · intro x hx
          simp only [List.mem_singleton] at hx
          simp [addedIds, hx]
  | promote now =>
    refine ⟨promoteCount r, [], Nat.min_le_left _ _, ?_, rfl, by simp⟩
    rw [applyOp, promote_eq]
    simp
  | complete pid now =>
    by_cases hmem : pid ∈ r.assigned_list
    · refine ⟨promoteCount (completeMid r pid now), [], Nat.min_le_left _ _, ?_, ?_, by simp⟩
      · rw [applyOp, complete_mem_mid now hmem, CompleteResult.state, promote_eq]
        simp [completeMid]
      · simp [promotedByOp, hmem, completeMid]
    · refine ⟨0, [], Nat.zero_le _, ?_, by simp [promotedByOp, hmem], by simp⟩
      rw [applyOp, complete_notMem now hmem, CompleteResult.state]
      simp

/-- Queue evolution over a whole run: a prefix of the original waiting queue
(of some length `k`) is consumed from the front and embeds, in order, into
the promotion log; the remaining suffix stays at the front of the final
queue; everything behind it was pushed by `add`; and every promoted
identifier is either from that consumed prefix or was added during the
run. -/
theorem applyOps_queue_fifo (r : Registry) (ops : List Op) :
    ∃ k tail, k ≤ r.awaiting_queue.length ∧
      (applyOps r ops).awaiting_queue = r.awaiting_queue.drop k ++ tail ∧
      (r.awaiting_queue.take k).Sublist (promotedByOps r ops) ∧
      (∀ x ∈ tail, x ∈ addedIds ops) ∧
      (∀ x ∈ promotedByOps r ops, x ∈ r.awaiting_queue.take k ∨ x ∈ addedIds ops) := by
  induction ops generalizing r with
  | nil =>
    exact ⟨0, [], Nat.zero_le _, by simp [applyOps], by simp [promotedByOps],
      by simp, by simp [promotedByOps]⟩
  | cons op ops ih =>
    obtain ⟨k0, t0, hk0, hq0, hp0, ht0⟩ := applyOp_queue r op
    obtain ⟨k1, t1, hk1, hq1, hs1, ht1, hl1⟩ := ih (applyOp r op)
    have happly : applyOps r (op :: ops) = applyOps (applyOp r op) ops := rfl
    have hlog : promotedByOps r (op :: ops) =
        promotedByOp r op ++ promotedByOps (applyOp r op) ops := rfl
    have hlendrop : (r.awaiting_queue.drop k0).length = r.awaiting_queue.length - k0 :=
      List.length_drop k0 r.awaiting_queue
    by_cases hc : k1 ≤ r.awaiting_queue.length - k0
    · -- the run consumes k0 + k1 elements of the original queue
      have hz : k1 - (r.awaiting_queue.drop k0).length = 0 := by omega
      have hq1take : (applyOp r op).awaiting_queue.take k1 =
          (r.awaiting_queue.drop k0).take k1 := by
        rw [hq0, List.take_append_eq_append_take, hz]
        simp
      refine ⟨k0 + k1, t0 ++ t1, by omega, ?_, ?_, ?_, ?_⟩
      · rw [happly, hq1, hq0, List.drop_append_eq_append_drop, hz]
        simp only [List.drop_zero, List.drop_drop, List.append_assoc]
      · rw [hlog, List.take_add, ← hp0]
        exact List.Sublist.append_left (hq1take ▸ hs1) _
      · intro x hx
        rcases List.mem_append.mp hx with h | h
        · exact (mem_addedIds_cons x op ops).mpr (Or.inl (ht0 x h))
        · exact (mem_addedIds_cons x op ops).mpr (Or.inr (ht1 x h))
      · intro x hx
        rw [hlog] at hx
        rcases List.mem_append.mp hx with h | h
        · rw [hp0] at h
          rw [List.take_add]
          exact Or.inl (List.mem_append.mpr (Or.inl h))
        · rcases hl1 x h with h2 | h2
          · rw [hq1take] at h2
            rw [List.take_add]
            exact Or.inl (List.mem_append.mpr (Or.inr h2))
          · exact Or.inr ((mem_addedIds_cons x op ops).mpr (Or.inr h2))
    · -- the original queue is consumed entirely
      have hdd : (r.awaiting_queue.drop k0).drop k1 = [] :=
        List.drop_eq_nil_of_le (by omega)
      have hq1take : (applyOp r op).awaiting_queue.take k1 =
          r.awaiting_queue.drop k0 ++ t0.take (k1 - (r.awaiting_queue.length - k0)) := by
        rw [hq0, List.take_append_eq_append_take,
          List.take_of_length_le (by omega), hlendrop]
      refine ⟨r.awaiting_queue.length,
        t0.drop (k1 - (r.awaiting_queue.length - k0)) ++ t1, le_refl _, ?_, ?_, ?_, ?_⟩
      · rw [happly, hq1, hq0, List.drop_append_eq_append_drop, hdd, List.drop_length,
          hlendrop]
        simp
      · rw [List.take_length, hlog, ← List.take_append_drop k0 r.awaiting_queue]
        refine List.Sublist.append (hp0 ▸ List.Sublist.refl _) ?_
        refine List.Sublist.trans ?_ hs1
        rw [hq1take]
        exact List.sublist_append_left _ _
      · intro x hx
        rcases List.mem_append.mp hx with h | h
        · exact (mem_addedIds_cons x op ops).mpr
            (Or.inl (ht0 x (List.drop_subset _ _ h)))
        · exact (mem_addedIds_cons x op ops).mpr (Or.inr (ht1 x h))
      · intro x hx
        rw [List.take_length]
        rw [hlog] at hx
        rcases List.mem_append.mp hx with h | h
        · rw [hp0] at h
          exact Or.inl (List.take_subset _ _ h)
        · rcases hl1 x h with h2 | h2
          · rw [hq1take] at h2
            rcases List.mem_append.mp h2 with h3 | h3
            · exact Or.inl (List.drop_subset _ _ h3)
            · exact Or.inr ((mem_addedIds_cons x op ops).mpr
                (Or.inl (ht0 x (List.take_subset _ _ h3))))
          · exact Or.inr ((mem_addedIds_cons x op ops).mpr (Or.inr h2))

/-- With a duplicate-free queue, an element of `l.take k` sitting at index
`j` of `l` must satisfy `j < k`. -/
theorem nodup_index_lt_of_mem_take {l : List Nat} (hnd : l.Nodup) {j k : Nat}
    (hj : j < l.length) (hmem : l.get ⟨j, hj⟩ ∈ l.take k) : j < k := by
  obtain ⟨m, hm, hml⟩ := List.mem_take_iff_getElem.mp hmem
  have : m = j := (hnd.getElem_inj_iff).mp (by
    rw [hml]
    exact (List.get_eq_getElem l ⟨j, hj⟩).symm)
  omega

/-- A registry with spare capacity and a waiting queue (not reachable in a
run — `promote` is then a genuine mover; used to exercise `promote`). -/
def exampleQueue : Registry :=
  { limit := 3
    heap := fun _ => { name := "", surname := "", email := "", processing_time := 1 }
    assigned_list := [1]
    awaiting_queue := [2, 3]
    completed_list := []
    seen_ids := {1, 2, 3} }

/-- **C3.** `promote` moves waiting entities to the active set in strict FIFO
order.  Part 1: the `while` loop pops exactly the queue prefix that fits —
`promoteCount r = min |waiting| (capacity − |active|)` entities — assigns
each of them, and appends them to the active list in queue order, leaving the
rest of the queue untouched (no reordering, no priority).  Part 2: over any
run of operations, some prefix of the waiting queue is consumed from the
front and embeds, in order, into the cumulative promotion log.  Part 3
(consequence): if A sits strictly before B in the waiting queue (indices
`i < j`), and B is promoted during the run (and B's identifier is not
re-added), then A is promoted no later than B: both are in the consumed
prefix, which the promotion log contains in queue order. -/
theorem promote_fifo :
    (∀ (r : Registry) (now : Nat),
        (r.promote now).awaiting_queue = r.awaiting_queue.drop (promoteCount r) ∧
        (r.promote now).assigned_list =
          r.assigned_list ++ r.awaiting_queue.take (promoteCount r) ∧
        (r.promote now).heap =
          assignAllHeap now r.heap (r.awaiting_queue.take (promoteCount r)) ∧
        promoteCount r = min r.awaiting_queue.length (r.limit - r.assigned_list.length)) ∧
    (∀ (r : Registry) (ops : List Op),
        ∃ k tail, k ≤ r.awaiting_queue.length ∧
          (applyOps r ops).awaiting_queue = r.awaiting_queue.drop k ++ tail ∧
          (r.awaiting_queue.take k).Sublist (promotedByOps r ops)) ∧
    (∀ (r : Registry) (ops : List Op) (i j : Nat) (hij : i < j)
        (hj : j < r.awaiting_queue.length),
        r.awaiting_queue.Nodup →
        r.awaiting_queue.get ⟨j, hj⟩ ∈ promotedByOps r ops →
        r.awaiting_queue.get ⟨j, hj⟩ ∉ addedIds ops →
        ∃ k tail, i < k ∧ j < k ∧
          (applyOps r ops).awaiting_queue = r.awaiting_queue.drop k ++ tail ∧
          (r.awaiting_queue.take k).Sublist (promotedByOps r ops) ∧
          r.awaiting_queue.get ⟨i, lt_trans hij hj⟩ ∈ promotedByOps r ops) := by
  refine ⟨?_, ?_, ?_⟩
  · intro r now
    rw [promote_eq]
    exact ⟨rfl, rfl, rfl, rfl⟩
  · intro r ops
    obtain ⟨k, tail, hk, hq, hs, -, -⟩ := applyOps_queue_fifo r ops
    exact ⟨k, tail, hk, hq, hs⟩
  · intro r ops i j hij hj hnd hBlog hBadd
    obtain ⟨k, tail, hk, hq, hs, ht, hl⟩ := applyOps_queue_fifo r ops
    have hBtake : r.awaiting_queue.get ⟨j, hj⟩ ∈ r.awaiting_queue.take k := by
      rcases hl _ hBlog with h | h
      · exact h
      · exact absurd h hBadd
    have hjk : j < k := nodup_index_lt_of_mem_take hnd hj hBtake
    have hik : i < k := lt_trans hij hjk
    have hAtake : r.awaiting_queue.get ⟨i, lt_trans hij hj⟩ ∈ r.awaiting_queue.take k := by
      have hlen : i < (r.awaiting_queue.take k).length := by
        simp only [List.length_take]
        omega
      have hgets : (r.awaiting_queue.take k).get ⟨i, hlen⟩ =
          r.awaiting_queue.get ⟨i, lt_trans hij hj⟩ := by
        simp [List.get_eq_getElem, List.getElem_take]
      rw [← hgets]
      exact List.get_mem _ _ _
    exact ⟨k, tail, hik, hjk, hq, hs, hs.subset hAtake⟩

theorem promote_fifo_witness :
    (exampleQueue.promote 5).awaiting_queue =
      exampleQueue.awaiting_queue.drop (promoteCount exampleQueue) ∧
    (exampleQueue.promote 5).assigned_list =
      exampleQueue.assigned_list ++
        exampleQueue.awaiting_queue.take (promoteCount exampleQueue) ∧
    (exampleQueue.promote 5).heap =
      assignAllHeap 5 exampleQueue.heap
        (exampleQueue.awaiting_queue.take (promoteCount exampleQueue)) ∧
    promoteCount exampleQueue =
      min exampleQueue.awaiting_queue.length
        (exampleQueue.limit - exampleQueue.assigned_list.length) :=
  promote_fifo.1 exampleQueue 5

/-- An identifier not in the promoted list keeps its heap entry. -/
theorem assignAllHeap_notMem (now : Nat) (heap : Nat → Person) (pids : List Nat)
    {x : Nat} (hx : x ∉ pids) : assignAllHeap now heap pids x = heap x := by
  induction pids generalizing heap with
  | nil => rfl
  | cons pid rest ih =>
    have hne : x ≠ pid := fun he => hx (he ▸ List.mem_cons_self pid rest)
    have hxr : x ∉ rest := fun hr => hx (List.mem_cons_of_mem pid hr)
    show assignAllHeap now (store heap pid ((heap pid).assign now)) rest x = heap x
    rw [ih _ hxr]
    simp [store, hne]

/-- Scenario A of the spec: capacity 2, three entities added in order. -/
def scenarioA : Registry := (((Registry.empty 2).add 1 pA 0).add 2 pB 0).add 3 pC 0

/-- **C4.** For an entity in the active set, `complete` transitions it to
`COMPLETED` with its completed timestamp set, removes its identifier from the
seen-identifier set, appends it to the completed log, removes it from the
active set, and then unconditionally invokes promotion on the result.  If
capacity was exactly exhausted and the waiting queue is non-empty, exactly
one waiting entity (the queue head) is promoted within the same call.  The
final closed conjuncts check Scenario A: capacity 2, adds E1 E2 E3 → active
= [E1, E2], waiting = [E3]; completing E1 yields active = [E2, E3] and
waiting = []. -/
theorem complete_active_spec {r : Registry} (hinv : RegInv r) {pid : Nat}
    (hpid : pid ∈ r.assigned_list) (now : Nat) :
    r.complete pid now = .ok ((completeMid r pid now).promote now) ∧
    (r.complete pid now).state.heap pid =
      { r.heap pid with completed_at := some now, status := .COMPLETED } ∧
    (r.complete pid now).state.seen_ids = r.seen_ids.erase pid ∧
    (r.complete pid now).state.completed_list = r.completed_list ++ [pid] ∧
    (r.complete pid now).state.assigned_list =
      r.assigned_list.erase pid ++
        r.awaiting_queue.take (promoteCount (completeMid r pid now)) ∧
    (r.assigned_list.length = r.limit → r.awaiting_queue ≠ [] →
      ∃ q0 qrest, r.awaiting_queue = q0 :: qrest ∧
        (r.complete pid now).state.assigned_list = r.assigned_list.erase pid ++ [q0] ∧
        (r.complete pid now).state.awaiting_queue = qrest) ∧
    (scenarioA.assigned_list = [1, 2] ∧ scenarioA.awaiting_queue = [3] ∧
      (scenarioA.complete 1 4).state.assigned_list = [2, 3] ∧
      (scenarioA.complete 1 4).state.awaiting_queue = [] ∧
      (scenarioA.complete 1 4).state.completed_list = [1] ∧
      ((scenarioA.complete 1 4).state.heap 1).status = .COMPLETED) := by
  obtain ⟨h1, h2, h3, h4, h5⟩ := hinv
  have hnodA : r.assigned_list.Nodup := (List.nodup_append.mp h3).1
  have hdisj : r.assigned_list.Disjoint r.awaiting_queue := (List.nodup_append.mp h3).2.2
  have hpq : pid ∉ r.awaiting_queue := fun hmem => hdisj hpid hmem
  have hlenE : (r.assigned_list.erase pid).length = r.assigned_list.length - 1 :=
    List.length_erase_of_mem hpid
  have hlenpos : 0 < r.assigned_list.length := List.length_pos.mpr (by
    intro hnil
    rw [hnil] at hpid
    exact absurd hpid (List.not_mem_nil pid))
  have hstate : (r.complete pid now).state = (completeMid r pid now).promote now := by
    rw [complete_mem_mid now hpid, CompleteResult.state]
  refine ⟨complete_mem_mid now hpid, ?_, ?_, ?_, ?_, ?_, ?_⟩
  · rw [hstate, promote_eq]
    show assignAllHeap now (completeMid r pid now).heap
        (List.take (promoteCount (completeMid r pid now)) r.awaiting_queue) pid = _
    rw [assignAllHeap_notMem now _ _
      (fun hmem => hpq (List.take_subset _ _ hmem))]
    simp [completeMid, store]
  · rw [hstate, promote_eq]
    rfl
  · rw [hstate, promote_eq]
    rfl
  · rw [hstate, promote_eq]
    rfl
  · intro hfull hqne
    rcases hq : r.awaiting_queue with _ | ⟨q0, qrest⟩
    · exact absurd hq hqne
    · have hcount : promoteCount (completeMid r pid now) = 1 := by
        simp only [promoteCount, completeMid, hq, hlenE, List.length_cons]
        omega
      refine ⟨q0, qrest, rfl, ?_, ?_⟩
      · rw [hstate, promote_eq, hcount]
        show r.assigned_list.erase pid ++ (r.awaiting_queue.take 1) = _
        rw [hq]
        rfl
      · rw [hstate, promote_eq, hcount]
        show r.awaiting_queue.drop 1 = qrest
        rw [hq]
        rfl
  · refine ⟨by decide, by decide, by decide, by decide, by decide, by decide⟩

theorem complete_active_spec_witness :
    scenarioA.complete 1 4 = .ok ((completeMid scenarioA 1 4).promote 4) ∧
    (scenarioA.complete 1 4).state.heap 1 =
      { scenarioA.heap 1 with completed_at := some 4, status := .COMPLETED } ∧
    (scenarioA.complete 1 4).state.seen_ids = scenarioA.seen_ids.erase 1 ∧
    (scenarioA.complete 1 4).state.completed_list = scenarioA.completed_list ++ [1] ∧
    (scenarioA.complete 1 4).state.assigned_list =
      scenarioA.assigned_list.erase 1 ++
        scenarioA.awaiting_queue.take (promoteCount (completeMid scenarioA 1 4)) ∧
    (scenarioA.assigned_list.length = scenarioA.limit → scenarioA.awaiting_queue ≠ [] →
      ∃ q0 qrest, scenarioA.awaiting_queue = q0 :: qrest ∧
        (scenarioA.complete 1 4).state.assigned_list =
          scenarioA.assigned_list.erase 1 ++ [q0] ∧
        (scenarioA.complete 1 4).state.awaiting_queue = qrest) ∧
    (scenarioA.assigned_list = [1, 2] ∧ scenarioA.awaiting_queue = [3] ∧
      (scenarioA.complete 1 4).state.assigned_list = [2, 3] ∧
      (scenarioA.complete 1 4).state.awaiting_queue = [] ∧
      (scenarioA.complete 1 4).state.completed_list = [1] ∧
      ((scenarioA.complete 1 4).state.heap 1).status = .COMPLETED) :=
  complete_active_spec (by decide) (by decide) 4

/-! ### The simulation driver's tick (steps 1–4 of `PipelineOrchestrator.run`) -/

/-- Step 1 of a tick: `for person in self.registry.assigned_list:
person.processing_time -= 1`, as a left-to-right pass over the active
list mutating the heap. -/
def decPass (heap : Nat → Person) : List Nat → (Nat → Person)
  | [] => heap
  | pid :: rest =>
      decPass (store heap pid
        { heap pid with processing_time := (heap pid).processing_time - 1 }) rest

/-- The registry after step 1 (only the heap changes). -/
def tickDecremented (r : Registry) : Registry :=
  { r with heap := decPass r.heap r.assigned_list }

/-- Step 2: `finished = [p for p in assigned_list if p.processing_time <= 0]`,
computed on the post-decrement, pre-completion snapshot of the active list. -/
def tickFinished (r : Registry) : List Nat :=
  (tickDecremented r).assigned_list.filter
    fun pid => decide (((tickDecremented r).heap pid).processing_time ≤ 0)

/-- Step 3: `for person in finished: self.registry.complete(person)`; a
raised `ValueError` propagates (aborting the loop), as in the source. -/
def completeAll (now : Nat) : Registry → List Nat → CompleteResult
  | r, [] => .ok r
  | r, pid :: rest =>
    match r.complete pid now with
    | .ok r2 => completeAll now r2 rest
    | .invalidState e => .invalidState e

/-- Steps 1–4 of one tick of `PipelineOrchestrator.run`: decrement, collect
the finished snapshot, complete each finished entity in captured order, then
`add` the producer's batch (the Workload Producer is an external
collaborator, so the batch is a parameter). -/
def Registry.tick (r : Registry) (batch : List (Nat × Person)) (now : Nat) :
    CompleteResult :=
  match completeAll now (tickDecremented r) (tickFinished r) with
  | .ok r2 => .ok (batch.foldl (fun s q => s.add q.1 q.2 now) r2)
  | .invalidState e => .invalidState e

theorem decPass_notMem (heap : Nat → Person) (l : List Nat) {x : Nat} (hx : x ∉ l) :
    decPass heap l x = heap x := by
  induction l generalizing heap with
  | nil => rfl
  | cons pid rest ih =>
    have hne : x ≠ pid := fun he => hx (he ▸ List.mem_cons_self pid rest)
    have hxr : x ∉ rest := fun hr => hx (List.mem_cons_of_mem pid hr)
    show decPass (store heap pid _) rest x = heap x
    rw [ih _ hxr]
    simp [store, hne]

theorem decPass_mem (heap : Nat → Person) {l : List Nat} (hnd : l.Nodup) {x : Nat}
    (hx : x ∈ l) :
    decPass heap l x =
      { heap x with processing_time := (heap x).processing_time - 1 } := by
  induction l generalizing heap with
  | nil => exact absurd hx (List.not_mem_nil x)
  | cons pid rest ih =>
    rcases List.mem_cons.mp hx with he | hr
    · subst he
      have hxr : x ∉ rest := (List.nodup_cons.mp hnd).1
      show decPass (store heap x _) rest x = _
      rw [decPass_notMem _ _ hxr]
      simp [store]
    · have hne : x ≠ pid := by
        intro he
        exact (List.nodup_cons.mp hnd).1 (he ▸ hr)
      show decPass (store heap pid _) rest x = _
      rw [ih _ (List.nodup_cons.mp hnd).2 hr]
      simp [store, hne]

/-- The completed-log and active-list effect of a successful `complete`. -/
theorem complete_state_completed {r : Registry} {pid : Nat} (now : Nat)
    (h : pid ∈ r.assigned_list) :
    (r.complete pid now).state.completed_list = r.completed_list ++ [pid] := by
  rw [complete_mem_mid now h, CompleteResult.state, promote_eq]
  rfl

theorem complete_state_assigned {r : Registry} {pid : Nat} (now : Nat)
    (h : pid ∈ r.assigned_list) :
    (r.complete pid now).state.assigned_list =
      r.assigned_list.erase pid ++
        r.awaiting_queue.take (promoteCount (completeMid r pid now)) := by
  rw [complete_mem_mid now h, CompleteResult.state, promote_eq]
  rfl

/-- Completing a duplicate-free sublist of the active list succeeds entirely
and appends exactly those entities, in order, to the completed log. -/
theorem completeAll_ok {fin : List Nat} :
    ∀ {r : Registry}, RegInv r → fin.Sublist r.assigned_list → ∀ now : Nat,
    ∃ r2, completeAll now r fin = .ok r2 ∧ RegInv r2 ∧
      r2.completed_list = r.completed_list ++ fin := by
  induction fin with
  | nil =>
    intro r hinv _ now
    exact ⟨r, rfl, hinv, by simp⟩
  | cons pid rest ih =>
    intro r hinv hsub now
    have hmem : pid ∈ r.assigned_list := hsub.subset (List.mem_cons_self pid rest)
    have hnodA : r.assigned_list.Nodup := (List.nodup_append.mp hinv.2.2.1).1
    have hrest : rest.Sublist (r.assigned_list.erase pid) := by
      have h1 : ((pid :: rest).erase pid).Sublist (r.assigned_list.erase pid) :=
        hsub.erase pid
      simpa using h1
    have hrest2 : rest.Sublist (r.complete pid now).state.assigned_list := by
      rw [complete_state_assigned now hmem]
      exact hrest.trans (List.sublist_append_left _ _)
    obtain ⟨r3, hca, hinv3, hcomp3⟩ :=
      ih (regInv_complete hinv hmem now) hrest2 now
    refine ⟨r3, ?_, hinv3, ?_⟩
    · show (match r.complete pid now with
        | .ok r2 => completeAll now r2 rest
        | .invalidState e => .invalidState e) = .ok r3
      rw [complete_mem_mid now hmem]
      rw [complete_mem_mid now hmem, CompleteResult.state] at hca
      exact hca
    · rw [hcomp3, complete_state_completed now hmem, List.append_assoc,
        List.singleton_append]

/-- **C7.** On each tick the driver first decrements the remaining processing
time of every active entity by exactly 1 (and touches nothing else), then
computes the finished list as exactly those active entities with remaining
time ≤ 0 from the post-decrement, pre-completion snapshot of the active list,
and completes each of them in that captured order: every `complete` succeeds,
and the completed log is extended by exactly the finished list, in order.
The finished snapshot is duplicate-free and fixed before any completion, so
no entity is completed and then re-counted within the same tick. -/
theorem tick_spec {r : Registry} (hinv : RegInv r) (batch : List (Nat × Person))
    (now : Nat) :
    (∀ pid ∈ r.assigned_list,
        ((tickDecremented r).heap pid).processing_time =
          (r.heap pid).processing_time - 1) ∧
    (∀ pid, pid ∉ r.assigned_list → (tickDecremented r).heap pid = r.heap pid) ∧
    tickFinished r = r.assigned_list.filter
      (fun pid => decide (((tickDecremented r).heap pid).processing_time ≤ 0)) ∧
    (tickFinished r).Nodup ∧
    ∃ r2, completeAll now (tickDecremented r) (tickFinished r) = .ok r2 ∧
      r2.completed_list = r.completed_list ++ tickFinished r ∧
      r.tick batch now = .ok (batch.foldl (fun s q => s.add q.1 q.2 now) r2) := by
  have hnodA : r.assigned_list.Nodup := (List.nodup_append.mp hinv.2.2.1).1
  refine ⟨?_, ?_, rfl, hnodA.filter _, ?_⟩
  · intro pid hp
    show (decPass r.heap r.assigned_list pid).processing_time = _
    rw [decPass_mem r.heap hnodA hp]
  · intro pid hp
    exact decPass_notMem r.heap _ hp
  · have hval : RegInv (tickDecremented r) := hinv
    have hsub : (tickFinished r).Sublist (tickDecremented r).assigned_list :=
      List.filter_sublist _
    obtain ⟨r2, hca, hinv2, hcomp⟩ := completeAll_ok hval hsub now
    refine ⟨r2, hca, hcomp, ?_⟩
    show (match completeAll now (tickDecremented r) (tickFinished r) with
      | .ok r2 => CompleteResult.ok (batch.foldl (fun (s : Registry) (q : Nat × Person) => s.add q.1 q.2 now) r2)
      | .invalidState e => CompleteResult.invalidState e) = _
    rw [hca]

theorem tick_spec_witness :
    (∀ pid ∈ scenarioA.assigned_list,
        ((tickDecremented scenarioA).heap pid).processing_time =
          (scenarioA.heap pid).processing_time - 1) ∧
    (∀ pid, pid ∉ scenarioA.assigned_list →
        (tickDecremented scenarioA).heap pid = scenarioA.heap pid) ∧
    tickFinished scenarioA = scenarioA.assigned_list.filter
      (fun pid => decide (((tickDecremented scenarioA).heap pid).processing_time ≤ 0)) ∧
    (tickFinished scenarioA).Nodup ∧
    ∃ r2, completeAll 9 (tickDecremented scenarioA) (tickFinished scenarioA) = .ok r2 ∧
      r2.completed_list = scenarioA.completed_list ++ tickFinished scenarioA ∧
      scenarioA.tick [] 9 =
        .ok (List.foldl (fun (s : Registry) (q : Nat × Person) => s.add q.1 q.2 9)
          r2 ([] : List (Nat × Person))) :=
  tick_spec (by decide) [] 9

/-! ### CSV export of the completed log (`Registry.save`)

`datetime` values are abstracted as `Nat` ticks throughout, so `isoformat()`
is abstracted as the (injective) decimal rendering of that tick; an unset
timestamp is written as the empty string, exactly as in the source.  The file
is modeled as its character sequence; `csv.writer` with the default dialect
quotes a field only when it contains a delimiter, quote or newline
(`QUOTE_MINIMAL`) and terminates each row with CRLF. -/

/-- The character of one decimal digit (codepoint 48 + digit). -/
def digitChar (k : Nat) : Char := Char.ofNat (48 + k)

/-- Inverse of `digitChar` on real digits. -/
def digitVal? (c : Char) : Option Nat :=
  if 48 ≤ c.toNat ∧ c.toNat ≤ 57 then some (c.toNat - 48) else none

/-- Decimal rendering of a natural number (most significant digit first). -/
def natChars (n : Nat) : List Char :=
  if _h : n < 10 then [digitChar n]
  else natChars (n / 10) ++ [digitChar (n % 10)]
decreasing_by exact Nat.div_lt_self (by omega) (by omega)

/-- One step of decimal parsing. -/
def digitStep (acc : Option Nat) (c : Char) : Option Nat :=
  match acc, digitVal? c with
  | some a, some d => some (a * 10 + d)
  | _, _ => none

/-- Decimal parsing of a character sequence. -/
def charsToNat? (l : List Char) : Option Nat :=
  l.foldl digitStep (some 0)

theorem digitVal?_digitChar {k : Nat} (h : k < 10) :
    digitVal? (digitChar k) = some k := by
  interval_cases k <;> decide

theorem natChars_ne_nil (n : Nat) : natChars n ≠ [] := by
  rw [natChars]
  by_cases h : n < 10
  · simp [h]
  · simp [h]

theorem digitStep_digits (n : Nat) :
    ∀ a : Nat, (natChars n).foldl digitStep (some a) =
      some (a * 10 ^ (natChars n).length + n) := by
  induction n using Nat.strong_induction_on with
  | _ n ih =>
    intro a
    rw [natChars]
    by_cases h : n < 10
    · rw [dif_pos h]
      simp [digitStep, digitVal?_digitChar h]
    · rw [dif_neg h]
      rw [List.foldl_append, ih (n / 10) (Nat.div_lt_self (by omega) (by omega)) a]
      have hlt : n % 10 < 10 := Nat.mod_lt n (by omega)
      simp only [List.foldl_cons, List.foldl_nil, digitStep, digitVal?_digitChar hlt,
        List.length_append, List.length_singleton]
      have hdm : n / 10 * 10 + n % 10 = n := by
        have := Nat.div_add_mod n 10
        omega
      have hpow : 10 ^ ((natChars (n / 10)).length + 1) =
          10 ^ (natChars (n / 10)).length * 10 := pow_succ 10 _
      congr 1
      rw [hpow]
      ring_nf
      omega

theorem charsToNat?_natChars (n : Nat) : charsToNat? (natChars n) = some n := by
  rw [charsToNat?, digitStep_digits n 0]
  simp

/-- Characters that force `csv.writer` (QUOTE_MINIMAL) to quote a field. -/
def csvSpecial (c : Char) : Bool :=
  c = ',' || c = '"' || c = '\n' || c = '\r'

/-- Whether a field must be quoted. -/
def needsQuote (f : List Char) : Bool := f.any csvSpecial

/-- Double every quote character (the quoting escape of `csv.writer`). -/
def doubleQuotes : List Char → List Char
  | [] => []
  | c :: cs => if c = '"' then '"' :: '"' :: doubleQuotes cs else c :: doubleQuotes cs

/-- A field wrapped in quotes, inner quotes doubled. -/
def quoteField (f : List Char) : List Char := '"' :: doubleQuotes f ++ ['"']

/-- A serialized field: quoted exactly when it contains a special char. -/
def csvField (f : List Char) : List Char := if needsQuote f then quoteField f else f

/-- Join with a single separator character. -/
def joinChar (c : Char) : List (List Char) → List Char
  | [] => []
  | [f] => f
  | f :: rest => f ++ c :: joinChar c rest

/-- One serialized row (fields comma-joined). -/
def csvRow (fs : List (List Char)) : List Char := joinChar ',' (fs.map csvField)

/-- The CRLF row terminator of `csv.writer`'s default dialect. -/
def crlf : List Char := ['\r', '\n']

/-- The serialized file: every row followed by CRLF. -/
def csvFile (rows : List (List (List Char))) : List Char :=
  (rows.map fun row => csvRow row ++ crlf).flatten

/-- A timestamp cell: empty for an unset timestamp, else its rendering. -/
def tsCell : Option Nat → List Char
  | none => []
  | some t => natChars t

/-- The header row written by `Registry.save`. -/
def headerRow : List (List Char) :=
  ["Id_no".toList, "Name".toList, "Surname".toList, "Email".toList,
   "Registered".toList, "Assigned".toList, "Completed".toList]

/-- The row written for one completed record: identifier (string form), name,
surname, email, and the three timestamps. -/
def recordRow (pid : Nat) (p : Person) : List (List Char) :=
  [natChars pid, p.name.toList, p.surname.toList, p.email.toList,
   tsCell p.registered_at, tsCell p.assigned_at, tsCell p.completed_at]

/-- `Registry.save`: header row then one row per completed entity, in
completion order. -/
def Registry.save (r : Registry) : List Char :=
  csvFile (headerRow :: r.completed_list.map fun pid => recordRow pid (r.heap pid))

/-- Split on a character (inverse of `joinChar` for clean fields). -/
def splitOnChar (c : Char) : List Char → List (List Char)
  | [] => [[]]
  | x :: xs =>
    match splitOnChar c xs with
    | [] => [[]]
    | f :: rest => if x = c then [] :: f :: rest else (x :: f) :: rest

/-- Remove a trailing carriage return (reading a CRLF-terminated line). -/
def stripCR (l : List Char) : List Char :=
  if l.getLast? = some '\r' then l.dropLast else l

/-- The lines of a newline-terminated text file. -/
def linesOf (file : List Char) : List (List Char) :=
  ((splitOnChar '\n' file).dropLast).map stripCR

/-- Re-parsing: split the file into lines, each line into fields. -/
def parseCsv (file : List Char) : List (List (List Char)) :=
  (linesOf file).map (splitOnChar ',')

/-- Decode a timestamp cell (empty string ↔ unset). -/
def parseTs (cell : List Char) : Option (Option Nat) :=
  if cell = [] then some none else (charsToNat? cell).map some

/-- Decode one record row back into identifier, the three string fields and
the three timestamps. -/
def parsePersonRow : List (List Char) → Option (Nat × List Char × List Char ×
    List Char × Option Nat × Option Nat × Option Nat)
  | [idc, nm, sn, em, t1, t2, t3] => do
      let pid ← charsToNat? idc
      let r1 ← parseTs t1
      let r2 ← parseTs t2
      let r3 ← parseTs t3
      pure (pid, nm, sn, em, r1, r2, r3)
  | _ => none

theorem splitOnChar_of_notMem {c : Char} {f : List Char} (hf : c ∉ f) :
    splitOnChar c f = [f] := by
  induction f with
  | nil => rfl
  | cons x xs ih =>
    have hxc : x ≠ c := fun he => hf (he ▸ List.mem_cons_self x xs)
    have hxs : c ∉ xs := fun hm => hf (List.mem_cons_of_mem x hm)
    rw [splitOnChar, ih hxs]
    simp [hxc]

theorem splitOnChar_ne_nil (c : Char) (l : List Char) : splitOnChar c l ≠ [] := by
  cases l with
  | nil => simp [splitOnChar]
  | cons x xs =>
    rw [splitOnChar]
    rcases splitOnChar c xs with _ | ⟨f, rest⟩
    · simp
    · by_cases hx : x = c <;> simp [hx]

theorem splitOnChar_append {c : Char} {f : List Char} (rest : List Char)
    (hf : c ∉ f) :
    splitOnChar c (f ++ c :: rest) = f :: splitOnChar c rest := by
  induction f with
  | nil =>
    show splitOnChar c (c :: rest) = [] :: splitOnChar c rest
    rw [splitOnChar]
    rcases hs : splitOnChar c rest with _ | ⟨g, gs⟩
    · exact absurd hs (splitOnChar_ne_nil c rest)
    · simp
  | cons x xs ih =>
    have hxc : x ≠ c := fun he => hf (he ▸ List.mem_cons_self x xs)
    have hxs : c ∉ xs := fun hm => hf (List.mem_cons_of_mem x hm)
    rw [List.cons_append, splitOnChar, ih hxs]
    simp [hxc]

theorem splitOnChar_joinChar {c : Char} {ls : List (List Char)} (hne : ls ≠ [])
    (h : ∀ f ∈ ls, c ∉ f) :
    splitOnChar c (joinChar c ls) = ls := by
  induction ls with
  | nil => exact absurd rfl hne
  | cons f rest ih =>
    rcases rest with _ | ⟨g, gs⟩
    · exact splitOnChar_of_notMem (h f (List.mem_cons_self f []))
    · rw [joinChar, splitOnChar_append _ (h f (List.mem_cons_self f _)),
        ih (List.cons_ne_nil g gs) (fun x hx => h x (List.mem_cons_of_mem f hx))]
      exact fun hcon => List.noConfusion hcon

/-- A field none of whose characters force quoting. -/
def cleanField (f : List Char) : Prop := ∀ ch ∈ f, csvSpecial ch = false

instance (f : List Char) : Decidable (cleanField f) := by
  unfold cleanField
  infer_instance

theorem csvField_clean {f : List Char} (h : cleanField f) : csvField f = f := by
  have hq : needsQuote f = false := by
    rw [needsQuote, List.any_eq_false]
    intro ch hch
    simp [h ch hch]
  rw [csvField, hq]
  simp

theorem csvRow_clean {fs : List (List Char)} (h : ∀ f ∈ fs, cleanField f) :
    csvRow fs = joinChar ',' fs := by
  rw [csvRow]
  have hmap : fs.map csvField = fs.map id :=
    List.map_congr_left fun f hf => csvField_clean (h f hf)
  rw [hmap, List.map_id]

theorem mem_joinChar {c : Char} {ls : List (List Char)} {ch : Char}
    (h : ch ∈ joinChar c ls) : ch = c ∨ ∃ f ∈ ls, ch ∈ f := by
  induction ls with
  | nil => simp [joinChar] at h
  | cons f rest ih =>
    rcases rest with _ | ⟨g, gs⟩
    · exact Or.inr ⟨f, List.mem_cons_self f [], h⟩
    · rw [show joinChar c (f :: g :: gs) = f ++ c :: joinChar c (g :: gs) from rfl] at h
      rcases List.mem_append.mp h with h1 | h1
      · exact Or.inr ⟨f, List.mem_cons_self f _, h1⟩
      · rcases List.mem_cons.mp h1 with he | h2
        · exact Or.inl he
        · rcases ih h2 with he | ⟨f2, hf2, hchf⟩
          · exact Or.inl he
          · exact Or.inr ⟨f2, List.mem_cons_of_mem f hf2, hchf⟩

theorem splitOnChar_flatten_crlf {lines : List (List Char)}
    (h : ∀ l ∈ lines, '\n' ∉ l) :
    splitOnChar '\n' ((lines.map fun l => l ++ crlf).flatten) =
      lines.map (fun l => l ++ ['\r']) ++ [[]] := by
  induction lines with
  | nil => rfl
  | cons l rest ih =>
    have hl : '\n' ∉ l ++ ['\r'] := by
      intro hm
      rcases List.mem_append.mp hm with h1 | h1
      · exact h l (List.mem_cons_self _ _) h1
      · simp at h1
    show splitOnChar '\n' ((l ++ crlf) ++ (rest.map fun l => l ++ crlf).flatten) = _
    have hassoc : (l ++ crlf) ++ (rest.map fun l => l ++ crlf).flatten =
        (l ++ ['\r']) ++ '\n' :: (rest.map fun l => l ++ crlf).flatten := by
      simp [crlf]
    rw [hassoc, splitOnChar_append _ hl,
      ih (fun x hx => h x (List.mem_cons_of_mem l hx))]
    rfl

theorem linesOf_crlf {lines : List (List Char)} (h : ∀ l ∈ lines, '\n' ∉ l) :
    linesOf ((lines.map fun l => l ++ crlf).flatten) = lines := by
  rw [linesOf, splitOnChar_flatten_crlf h, List.dropLast_concat, List.map_map]
  have hcomp : stripCR ∘ (fun l : List Char => l ++ ['\r']) = id := funext fun l => by
    simp [stripCR, List.getLast?_concat, List.dropLast_concat]
  rw [hcomp, List.map_id]

theorem cleanField_natChars (n : Nat) : cleanField (natChars n) := by
  induction n using Nat.strong_induction_on with
  | _ n ih =>
    intro ch hch
    rw [natChars] at hch
    by_cases h : n < 10
    · rw [dif_pos h] at hch
      simp only [List.mem_singleton] at hch
      subst hch
      interval_cases n <;> decide
    · rw [dif_neg h] at hch
      rcases List.mem_append.mp hch with h1 | h1
      · exact ih (n / 10) (Nat.div_lt_self (by omega) (by omega)) ch h1
      · simp only [List.mem_singleton] at h1
        subst h1
        have hlt : n % 10 < 10 := Nat.mod_lt n (by omega)
        interval_cases hmod : n % 10 <;> decide

theorem cleanField_tsCell {ts : Option Nat} : cleanField (tsCell ts) := by
  cases ts with
  | none => intro ch hch; simp [tsCell] at hch
  | some t => exact cleanField_natChars t

theorem parseTs_tsCell (ts : Option Nat) : parseTs (tsCell ts) = some ts := by
  cases ts with
  | none => rfl
  | some t => simp [tsCell, parseTs, natChars_ne_nil t, charsToNat?_natChars]

/-- Scenario A after completing entity 1: a registry with a non-empty
completed log, used to exercise the export. -/
def exampleDone : Registry := (scenarioA.complete 1 4).state

/-- **C8.** Exporting a completed log with `K` entities produces exactly
`K + 1` lines: a header row naming the seven fields, then one row per entity
in completion order; an unset timestamp is written as the empty string and a
set one in its (`isoformat`, here abstracted as decimal-tick) rendering; and
re-parsing the file recovers the identifier, name, surname, email and all
three timestamps of every record exactly as stored.  The hypothesis asks
that the free-form string fields of the completed records contain no
delimiter, quote or newline characters, so that `csv.writer`'s minimal
quoting is the identity and rows correspond one-to-one to physical lines. -/
theorem save_roundtrip {r : Registry}
    (hclean : ∀ pid ∈ r.completed_list,
        cleanField (r.heap pid).name.toList ∧
        cleanField (r.heap pid).surname.toList ∧
        cleanField (r.heap pid).email.toList) :
    (linesOf r.save).length = r.completed_list.length + 1 ∧
    parseCsv r.save =
      headerRow :: r.completed_list.map (fun pid => recordRow pid (r.heap pid)) ∧
    headerRow = ["Id_no".toList, "Name".toList, "Surname".toList, "Email".toList,
      "Registered".toList, "Assigned".toList, "Completed".toList] ∧
    (∀ (pid : Nat) (p : Person), parsePersonRow (recordRow pid p) =
        some (pid, p.name.toList, p.surname.toList, p.email.toList,
          p.registered_at, p.assigned_at, p.completed_at)) := by
  have hrows : ∀ row ∈ headerRow ::
      r.completed_list.map (fun pid => recordRow pid (r.heap pid)),
      (∀ f ∈ row, cleanField f) ∧ row ≠ [] := by
    intro row hrow
    rcases List.mem_cons.mp hrow with he | hm
    · subst he
      exact ⟨by decide, by decide⟩
    · obtain ⟨pid, hpid, rfl⟩ := List.mem_map.mp hm
      obtain ⟨hn, hs, he⟩ := hclean pid hpid
      refine ⟨?_, by simp [recordRow]⟩
      intro f hf
      simp only [recordRow, List.mem_cons, List.not_mem_nil, or_false] at hf
      rcases hf with rfl | rfl | rfl | rfl | rfl | rfl | rfl
      · exact cleanField_natChars pid
      · exact hn
      · exact hs
      · exact he
      · exact cleanField_tsCell
      · exact cleanField_tsCell
      · exact cleanField_tsCell
  have hnolf : ∀ row ∈ headerRow ::
      r.completed_list.map (fun pid => recordRow pid (r.heap pid)),
      '\n' ∉ csvRow row := by
    intro row hrow hm
    rw [csvRow_clean (hrows row hrow).1] at hm
    rcases mem_joinChar hm with he | ⟨f, hf, hchf⟩
    · exact absurd he (by decide)
    · have := (hrows row hrow).1 f hf '\n' hchf
      exact absurd this (by decide)
  have hfile : r.save =
      (((headerRow :: r.completed_list.map (fun pid => recordRow pid (r.heap pid))).map
        csvRow).map (fun l => l ++ crlf)).flatten := by
    rw [Registry.save, csvFile, List.map_map]
    rfl
  have hlines : linesOf r.save =
      (headerRow :: r.completed_list.map (fun pid => recordRow pid (r.heap pid))).map
        csvRow := by
    rw [hfile]
    refine linesOf_crlf ?_
    intro l hl
    obtain ⟨row, hrow, rfl⟩ := List.mem_map.mp hl
    exact hnolf row hrow
  refine ⟨?_, ?_, rfl, ?_⟩
  · rw [hlines]
    simp
  · rw [parseCsv, hlines, List.map_map]
    have hsplit : ∀ row ∈ headerRow ::
        r.completed_list.map (fun pid => recordRow pid (r.heap pid)),
        (splitOnChar ',' ∘ csvRow) row = row := by
      intro row hrow
      show splitOnChar ',' (csvRow row) = row
      rw [csvRow_clean (hrows row hrow).1]
      refine splitOnChar_joinChar (hrows row hrow).2 ?_
      intro f hf hcm
      have := (hrows row hrow).1 f hf ',' hcm
      exact absurd this (by decide)
    calc ((headerRow :: r.completed_list.map (fun pid => recordRow pid (r.heap pid))).map
          (splitOnChar ',' ∘ csvRow))
        = (headerRow :: r.completed_list.map
            (fun pid => recordRow pid (r.heap pid))).map id :=
          List.map_congr_left hsplit
      _ = _ := List.map_id _
  · intro pid p
    simp [parsePersonRow, recordRow, charsToNat?_natChars, parseTs_tsCell]

theorem save_roundtrip_witness :
    (linesOf exampleDone.save).length = exampleDone.completed_list.length + 1 ∧
    parseCsv exampleDone.save =
      headerRow ::
        exampleDone.completed_list.map
          (fun pid => recordRow pid (exampleDone.heap pid)) ∧
    headerRow = ["Id_no".toList, "Name".toList, "Surname".toList, "Email".toList,
      "Registered".toList, "Assigned".toList, "Completed".toList] ∧
    (∀ (pid : Nat) (p : Person), parsePersonRow (recordRow pid p) =
        some (pid, p.name.toList, p.surname.toList, p.email.toList,
          p.registered_at, p.assigned_at, p.completed_at)) :=
  save_roundtrip (by decide)
